import Mathlib

/-!
Verification of the Black-Scholes-Merton notebook's numeric core.

The notebook is a teaching template: the bodies of `bsm` (cells 2 and 4), the
Monte Carlo price cell (cell 10), `plot_histogram` (cell 8) and `call`
(cell 12) are the unfilled exercise `??`.  Each definition below is therefore
modelled from the specification's contracts, which fix the intended formulas.
-/

namespace BSM

open MeasureTheory Set Topology

/-- Modelled from the spec: the scalar Terminal Price Model `bsm` of notebook
cell-2, whose body is the unfilled exercise `??`.  The spec gives
S = s0 * exp((r - 0.5*sigma^2)*t + sigma*sqrt(t)*z). -/
noncomputable def bsm_scalar (s_0 r sigma t z : ℝ) : ℝ :=
  s_0 * Real.exp ((r - 0.5 * sigma ^ 2) * t + sigma * Real.sqrt t * z)

/-- Modelled from the spec: the vectorized Terminal Price Model `bsm` of
notebook cell-4, whose body is the unfilled exercise `??`; it applies the
scalar formula element-wise to the vector of standard-normal draws. -/
noncomputable def bsm (s_0 r sigma t : ℝ) (z : List ℝ) : List ℝ :=
  z.map (bsm_scalar s_0 r sigma t)

/-- Modelled from the spec: the Monte Carlo Option Estimator of notebook
cell-10 (empty in the template): per-path payoff max(S_i - k, 0), averaged,
then discounted to present value by exp(-r*t). -/
noncomputable def mc_call_price (s_0 r sigma t k : ℝ) (z : List ℝ) : ℝ :=
  Real.exp (-(r * t)) *
    (((bsm s_0 r sigma t z).map (fun si => max (si - k) 0)).sum / (z.length : ℝ))

/-- Modelled from the spec: the same estimator with the mandatory discounting
step dropped, used to state the bias factor of spec section 4.2. -/
noncomputable def mc_call_price_undiscounted (s_0 r sigma t k : ℝ) (z : List ℝ) : ℝ :=
  ((bsm s_0 r sigma t z).map (fun si => max (si - k) 0)).sum / (z.length : ℝ)

/-- Modelled from the spec: the standard normal probability density, used to
express the external collaborator Φ. -/
noncomputable def normalPDF (x : ℝ) : ℝ :=
  Real.exp (-(x ^ 2 / 2)) / Real.sqrt (2 * Real.pi)

/-- Modelled from the spec: the standard normal cumulative distribution
function Φ, the external collaborator of spec section 6 used only by the
Closed-Form Pricer. -/
noncomputable def Phi (x : ℝ) : ℝ := ∫ u in Iic x, normalPDF u

/-- Modelled from the spec: d1 = (ln(s/k) + (r + sigma^2/2)*t) / (sigma*sqrt(t)). -/
noncomputable def d1 (s r sigma t k : ℝ) : ℝ :=
  (Real.log (s / k) + (r + sigma ^ 2 / 2) * t) / (sigma * Real.sqrt t)

/-- Modelled from the spec: d2 = d1 - sigma*sqrt(t). -/
noncomputable def d2 (s r sigma t k : ℝ) : ℝ :=
  d1 s r sigma t k - sigma * Real.sqrt t

/-- Modelled from the spec: the Closed-Form Pricer `call` of notebook cell-12,
whose body is the unfilled exercise `??`: price = Φ(d1)*s - Φ(d2)*k*exp(-r*t). -/
noncomputable def call (s r sigma t k : ℝ) : ℝ :=
  Phi (d1 s r sigma t k) * s - Phi (d2 s r sigma t k) * k * Real.exp (-(r * t))

/-- Modelled from the spec: the Terminal Price Model with the fail-fast domain
check of spec section 7; `none` models the raised domain error. -/
noncomputable def bsmChecked (s_0 r sigma t : ℝ) (z : List ℝ) : Option (List ℝ) :=
  if sigma < 0 ∨ t < 0 ∨ s_0 ≤ 0 then none else some (bsm s_0 r sigma t z)

/-- Modelled from the spec: the Closed-Form Pricer with the fail-fast domain
check of spec section 7 and the t = 0 intrinsic-value special case of spec
section 4.3. -/
noncomputable def callChecked (s r sigma t k : ℝ) : Option ℝ :=
  if sigma < 0 ∨ t < 0 ∨ s ≤ 0 ∨ k ≤ 0 then none
  else if t = 0 then some (max (s - k) 0)
  else some (call s r sigma t k)

/-- Slider ranges of the `interact` call in notebook cell-8:
r in [0.0, 0.2], sigma in [0.01, 1.0], t in [0.01, 2]. -/
def widgetRanges (r sigma t : ℝ) : Prop :=
  0.0 ≤ r ∧ r ≤ 0.2 ∧ 0.01 ≤ sigma ∧ sigma ≤ 1.0 ∧ 0.01 ≤ t ∧ t ≤ 2

/-- Modelled from the spec: the discounted payoff of a single simulated path,
the random summand of the Monte Carlo Option Estimator. -/
noncomputable def payoff_discounted (s_0 r sigma t k z : ℝ) : ℝ :=
  Real.exp (-(r * t)) * max (bsm_scalar s_0 r sigma t z - k) 0

/-- Variance of the discounted payoff of one path when the draw follows the
standard normal law. -/
noncomputable def mcVariance (s_0 r sigma t k : ℝ) : ℝ :=
  ∫ x, (payoff_discounted s_0 r sigma t k x - call s_0 r sigma t k) ^ 2
    ∂(ProbabilityTheory.gaussianReal 0 1)

/-- C1: for every s0 > 0, r, sigma > 0, t > 0 and every vector z of n
standard-normal draws, the Terminal Price Model returns exactly n terminal
prices whose i-th element is s0 * exp((r - 0.5*sigma^2)*t + sigma*sqrt(t)*z_i),
i.e. it operates element-wise, matching the scalar formula on each draw. -/
theorem bsm_elementwise (s_0 r sigma t : ℝ) (hs : 0 < s_0) (hsig : 0 < sigma)
    (ht : 0 < t) (z : List ℝ) :
    (bsm s_0 r sigma t z).length = z.length ∧
      ∀ i (h : i < z.length),
        (bsm s_0 r sigma t z).get ⟨i, by simpa [bsm] using h⟩ =
          s_0 * Real.exp ((r - 0.5 * sigma ^ 2) * t +
            sigma * Real.sqrt t * z.get ⟨i, h⟩) := by
  refine ⟨by simp [bsm], fun i h => ?_⟩
  simp [bsm, bsm_scalar]

/-- Witness for C1 at the notebook's market parameters with two draws. -/
theorem bsm_elementwise_witness :
    (bsm 100 0.03 0.4 0.25 [0, 1]).length = ([0, 1] : List ℝ).length ∧
      ∀ i (h : i < ([0, 1] : List ℝ).length),
        (bsm 100 0.03 0.4 0.25 [0, 1]).get ⟨i, by simpa [bsm] using h⟩ =
          100 * Real.exp ((0.03 - 0.5 * 0.4 ^ 2) * 0.25 +
            0.4 * Real.sqrt 0.25 * ([0, 1] : List ℝ).get ⟨i, h⟩) :=
  bsm_elementwise 100 0.03 0.4 0.25 (by norm_num) (by norm_num) (by norm_num) [0, 1]

/-- C7: for valid market parameters every element of the Terminal Price Model
output is strictly positive. -/
theorem bsm_pos (s_0 r sigma t : ℝ) (hs : 0 < s_0) (hsig : 0 < sigma)
    (ht : 0 < t) (z : List ℝ) : ∀ x ∈ bsm s_0 r sigma t z, 0 < x := by
  intro x hx
  simp only [bsm, List.mem_map] at hx
  obtain ⟨zi, _, rfl⟩ := hx
  unfold bsm_scalar
  positivity

/-- Witness for C7: the price simulated from the draw z = 0 at the notebook's
market parameters is positive. -/
theorem bsm_pos_witness : 0 < bsm_scalar 100 0.03 0.4 0.25 0 :=
  bsm_pos 100 0.03 0.4 0.25 (by norm_num) (by norm_num) (by norm_num) [0]
    (bsm_scalar 100 0.03 0.4 0.25 0) (by simp [bsm])

/-- C3: the Monte Carlo Option Estimator equals exp(-r*t) times the mean of
the per-path payoffs max(S_i - k, 0); dropping the discounting step changes
the estimate by exactly the factor exp(r*t). -/
theorem mc_call_price_discounted (s_0 r sigma t k : ℝ) (hs : 0 < s_0)
    (hsig : 0 < sigma) (ht : 0 < t) (hk : 0 < k) (z : List ℝ)
    (hn : 1 ≤ z.length) :
    mc_call_price s_0 r sigma t k z =
      Real.exp (-(r * t)) *
        (((bsm s_0 r sigma t z).map (fun si => max (si - k) 0)).sum /
          (z.length : ℝ)) ∧
    mc_call_price_undiscounted s_0 r sigma t k z =
      Real.exp (r * t) * mc_call_price s_0 r sigma t k z := by
  refine ⟨rfl, ?_⟩
  unfold mc_call_price mc_call_price_undiscounted
  rw [← mul_assoc, ← Real.exp_add]
  simp

/-- Witness for C3 at the notebook's market parameters with one draw. -/
theorem mc_call_price_discounted_witness :
    mc_call_price 100 0.03 0.4 0.25 105 [0] =
      Real.exp (-(0.03 * 0.25)) *
        (((bsm 100 0.03 0.4 0.25 [0]).map (fun si => max (si - 105) 0)).sum /
          (([0] : List ℝ).length : ℝ)) ∧
    mc_call_price_undiscounted 100 0.03 0.4 0.25 105 [0] =
      Real.exp (0.03 * 0.25) * mc_call_price 100 0.03 0.4 0.25 105 [0] :=
  mc_call_price_discounted 100 0.03 0.4 0.25 105 (by norm_num) (by norm_num)
    (by norm_num) (by norm_num) [0] (by simp)

/-- C2: the Closed-Form Pricer returns Φ(d1)*s - Φ(d2)*k*exp(-r*t) where
d1 = (ln(s/k) + (r + sigma^2/2)*t)/(sigma*sqrt(t)) and d2 = d1 - sigma*sqrt(t),
with Φ the standard normal cumulative distribution function. -/
theorem call_formula (s r sigma t k : ℝ) (hs : 0 < s) (hsig : 0 < sigma)
    (ht : 0 < t) (hk : 0 < k) :
    call s r sigma t k =
      Phi ((Real.log (s / k) + (r + sigma ^ 2 / 2) * t) /
          (sigma * Real.sqrt t)) * s -
        Phi ((Real.log (s / k) + (r + sigma ^ 2 / 2) * t) /
            (sigma * Real.sqrt t) - sigma * Real.sqrt t) * k *
          Real.exp (-(r * t)) := rfl

/-- Witness for C2 at the notebook's concrete scenario. -/
theorem call_formula_witness :
    call 100 0.03 0.4 0.25 105 =
      Phi ((Real.log (100 / 105) + (0.03 + 0.4 ^ 2 / 2) * 0.25) /
          (0.4 * Real.sqrt 0.25)) * 100 -
        Phi ((Real.log (100 / 105) + (0.03 + 0.4 ^ 2 / 2) * 0.25) /
            (0.4 * Real.sqrt 0.25) - 0.4 * Real.sqrt 0.25) * 105 *
          Real.exp (-(0.03 * 0.25)) :=
  call_formula 100 0.03 0.4 0.25 105 (by norm_num) (by norm_num) (by norm_num)
    (by norm_num)

/-- C5: with t = 0 the checked Closed-Form Pricer raises no error and returns
the intrinsic value max(s - k, 0). -/
theorem callChecked_t_zero (s r sigma k : ℝ) (hs : 0 < s) (hsig : 0 < sigma)
    (hk : 0 < k) : callChecked s r sigma 0 k = some (max (s - k) 0) := by
  unfold callChecked
  rw [if_neg, if_pos rfl]
  push_neg
  exact ⟨hsig.le, le_refl 0, hs, hk⟩

/-- Witness for C5 at the notebook's parameters with t = 0. -/
theorem callChecked_t_zero_witness :
    callChecked 100 0.03 0.4 0 105 = some (max (100 - 105) 0) :=
  callChecked_t_zero 100 0.03 0.4 105 (by norm_num) (by norm_num) (by norm_num)

/-- C6: both checked pricing functions raise a domain error exactly when
sigma < 0, t < 0, or the relevant price parameters s0/k are non-positive. -/
theorem domain_error_iff (s_0 s r sigma t k : ℝ) (z : List ℝ) :
    (bsmChecked s_0 r sigma t z = none ↔ (sigma < 0 ∨ t < 0 ∨ s_0 ≤ 0)) ∧
    (callChecked s r sigma t k = none ↔
      (sigma < 0 ∨ t < 0 ∨ s ≤ 0 ∨ k ≤ 0)) := by
  constructor
  · unfold bsmChecked
    split_ifs with h <;> simp [h]
  · unfold callChecked
    split_ifs with h h2 <;> simp [h]

/-- C10: every invocation reachable through the widget slider ranges satisfies
the domain preconditions: sigma > 0 and t > 0 hold and the domain-error branch
of the checked Terminal Price Model is unreachable. -/
theorem widget_no_domain_error (r sigma t : ℝ) (h : widgetRanges r sigma t)
    (z : List ℝ) :
    0 < sigma ∧ 0 < t ∧
      bsmChecked 100 r sigma t z = some (bsm 100 r sigma t z) := by
  obtain ⟨hr0, hr1, hs0, hs1, ht0, ht1⟩ := h
  refine ⟨by linarith, by linarith, ?_⟩
  unfold bsmChecked
  rw [if_neg]
  push_neg
  exact ⟨by linarith, by linarith, by norm_num⟩

/-- Witness for C10 at mid-range slider values. -/
theorem widget_no_domain_error_witness :
    0 < (0.4 : ℝ) ∧ 0 < (0.25 : ℝ) ∧
      bsmChecked 100 0.03 0.4 0.25 [0] = some (bsm 100 0.03 0.4 0.25 [0]) :=
  widget_no_domain_error 0.03 0.4 0.25
    (by refine ⟨by norm_num, by norm_num, by norm_num, by norm_num, by norm_num,
      by norm_num⟩) [0]

/-! Analytic facts about the modelled normal CDF Φ, needed for the
monotonicity properties of the Closed-Form Pricer. -/

theorem normalPDF_pos (x : ℝ) : 0 < normalPDF x := by
  unfold normalPDF
  have h2pi : (0:ℝ) < 2 * Real.pi := by positivity
  positivity

theorem continuous_normalPDF : Continuous normalPDF := by
  unfold normalPDF
  fun_prop

theorem integrable_normalPDF : Integrable normalPDF := by
  have h := (integrable_exp_neg_mul_sq (by norm_num : (0:ℝ) < 1/2)).div_const
    (Real.sqrt (2 * Real.pi))
  refine h.congr (Filter.Eventually.of_forall fun x => ?_)
  show Real.exp (-(1/2) * x ^ 2) / Real.sqrt (2 * Real.pi) = normalPDF x
  unfold normalPDF
  rw [show -(1/2 : ℝ) * x ^ 2 = -(x ^ 2 / 2) by ring]

theorem Phi_eq (x : ℝ) : Phi x = Phi 0 + ∫ u in (0:ℝ)..x, normalPDF u := by
  have h : ((∫ u in Iic x, normalPDF u) - ∫ u in Iic (0:ℝ), normalPDF u) =
      ∫ u in (0:ℝ)..x, normalPDF u :=
    intervalIntegral.integral_Iic_sub_Iic integrable_normalPDF.integrableOn
      integrable_normalPDF.integrableOn
  unfold Phi
  linarith

theorem hasDerivAt_Phi (x : ℝ) : HasDerivAt Phi (normalPDF x) x := by
  have h : HasDerivAt (fun u => ∫ v in (0:ℝ)..u, normalPDF v) (normalPDF x) x :=
    intervalIntegral.integral_hasDerivAt_right
      (integrable_normalPDF.intervalIntegrable)
      (continuous_normalPDF.stronglyMeasurableAtFilter volume _)
      continuous_normalPDF.continuousAt
  have hfun : Phi = fun u => Phi 0 + ∫ v in (0:ℝ)..u, normalPDF v := funext Phi_eq
  rw [hfun]
  exact h.const_add (Phi 0)

theorem Phi_nonneg (x : ℝ) : 0 ≤ Phi x :=
  setIntegral_nonneg measurableSet_Iic fun u _ => (normalPDF_pos u).le

/-- The classical identity s * φ(d1) = k * exp(-r t) * φ(d2) behind the BSM
Greeks; it reduces the derivative of `call` to a single CDF value. -/
theorem normalPDF_identity (s r sigma t k : ℝ) (hs : 0 < s) (hsig : 0 < sigma)
    (ht : 0 < t) (hk : 0 < k) :
    k * Real.exp (-(r * t)) * normalPDF (d2 s r sigma t k) =
      s * normalPDF (d1 s r sigma t k) := by
  have hst : 0 < sigma * Real.sqrt t := by positivity
  have hst2 : (sigma * Real.sqrt t) ^ 2 = sigma ^ 2 * t := by
    rw [mul_pow, Real.sq_sqrt ht.le]
  have hd1 : d1 s r sigma t k * (sigma * Real.sqrt t) =
      Real.log (s / k) + (r + sigma ^ 2 / 2) * t := by
    unfold d1
    field_simp
    ring
  have hdd : d1 s r sigma t k ^ 2 - d2 s r sigma t k ^ 2 =
      2 * (Real.log (s / k) + r * t) := by
    unfold d2
    have expand : d1 s r sigma t k ^ 2 -
        (d1 s r sigma t k - sigma * Real.sqrt t) ^ 2 =
        2 * (d1 s r sigma t k * (sigma * Real.sqrt t)) -
          (sigma * Real.sqrt t) ^ 2 := by ring
    rw [expand, hd1, hst2]
    ring
  set a := d1 s r sigma t k with ha
  set b := d2 s r sigma t k with hb
  have key : k * Real.exp (-(r * t)) * Real.exp (-(b ^ 2 / 2)) =
      s * Real.exp (-(a ^ 2 / 2)) := by
    rw [← Real.exp_log hk, ← Real.exp_log hs, ← Real.exp_add, ← Real.exp_add,
      ← Real.exp_add]
    congr 1
    have hlogdiv : Real.log (s / k) = Real.log s - Real.log k :=
      Real.log_div hs.ne' hk.ne'
    rw [hlogdiv] at hdd
    linarith
  unfold normalPDF
  rw [← mul_div_assoc, ← mul_div_assoc, key]

/-- Derivative of the Closed-Form Pricer in the spot price: the BSM delta
Φ(d1). -/
theorem hasDerivAt_call_s (r sigma t k : ℝ) (hsig : 0 < sigma) (ht : 0 < t)
    (hk : 0 < k) (s : ℝ) (hs : 0 < s) :
    HasDerivAt (fun x => call x r sigma t k) (Phi (d1 s r sigma t k)) s := by
  have hst : 0 < sigma * Real.sqrt t := by positivity
  have hd1 : HasDerivAt (fun x => d1 x r sigma t k)
      (1 / s / (sigma * Real.sqrt t)) s := by
    have hlog : HasDerivAt (fun x : ℝ => Real.log (x / k)) (1 / s) s := by
      have hinner : HasDerivAt (fun x : ℝ => x / k) (1 / k) s := by
        simpa using (hasDerivAt_id s).div_const k
      have houter := (Real.hasDerivAt_log
        (div_ne_zero hs.ne' hk.ne')).comp s hinner
      have heq : (s / k)⁻¹ * (1 / k) = 1 / s := by
        rw [inv_div]
        field_simp
        ring
      rw [heq] at houter
      simpa [Function.comp] using houter
    have hnum : HasDerivAt
        (fun x : ℝ => Real.log (x / k) + (r + sigma ^ 2 / 2) * t) (1 / s) s :=
      hlog.add_const _
    have := hnum.div_const (sigma * Real.sqrt t)
    simpa [d1] using this
  have hd2 : HasDerivAt (fun x => d2 x r sigma t k)
      (1 / s / (sigma * Real.sqrt t)) s := by
    have := hd1.sub_const (sigma * Real.sqrt t)
    simpa [d2] using this
  have hPhi1 : HasDerivAt (fun x => Phi (d1 x r sigma t k))
      (normalPDF (d1 s r sigma t k) * (1 / s / (sigma * Real.sqrt t))) s := by
    simpa [Function.comp] using (hasDerivAt_Phi (d1 s r sigma t k)).comp s hd1
  have hPhi2 : HasDerivAt (fun x => Phi (d2 x r sigma t k))
      (normalPDF (d2 s r sigma t k) * (1 / s / (sigma * Real.sqrt t))) s := by
    simpa [Function.comp] using (hasDerivAt_Phi (d2 s r sigma t k)).comp s hd2
  have hterm1 : HasDerivAt (fun x => Phi (d1 x r sigma t k) * x)
      (normalPDF (d1 s r sigma t k) * (1 / s / (sigma * Real.sqrt t)) * s +
        Phi (d1 s r sigma t k) * 1) s :=
    hPhi1.mul (hasDerivAt_id s)
  have hterm2 : HasDerivAt
      (fun x => Phi (d2 x r sigma t k) * k * Real.exp (-(r * t)))
      (normalPDF (d2 s r sigma t k) * (1 / s / (sigma * Real.sqrt t)) * k *
        Real.exp (-(r * t))) s :=
    (hPhi2.mul_const k).mul_const _
  have htotal := hterm1.sub hterm2
  have hderiv_eq :
      normalPDF (d1 s r sigma t k) * (1 / s / (sigma * Real.sqrt t)) * s +
        Phi (d1 s r sigma t k) * 1 -
        normalPDF (d2 s r sigma t k) * (1 / s / (sigma * Real.sqrt t)) * k *
          Real.exp (-(r * t)) = Phi (d1 s r sigma t k) := by
    have hid := normalPDF_identity s r sigma t k hs hsig ht hk
    linear_combination (-(1 / s / (sigma * Real.sqrt t))) * hid
  rw [hderiv_eq] at htotal
  exact htotal

/-- Derivative of the Closed-Form Pricer in the volatility: the BSM vega
s * φ(d1) * sqrt(t). -/
theorem hasDerivAt_call_sigma (s r t k : ℝ) (hs : 0 < s) (ht : 0 < t)
    (hk : 0 < k) (sigma : ℝ) (hsig : 0 < sigma) :
    HasDerivAt (fun x => call s r x t k)
      (s * normalPDF (d1 s r sigma t k) * Real.sqrt t) sigma := by
  have hsqt : 0 < Real.sqrt t := Real.sqrt_pos.mpr ht
  have hst : 0 < sigma * Real.sqrt t := by positivity
  set Q : ℝ := (2 * sigma / 2 * t * (sigma * Real.sqrt t) -
      (Real.log (s / k) + (r + sigma ^ 2 / 2) * t) * Real.sqrt t) /
      (sigma * Real.sqrt t) ^ 2 with hQ
  have hsq : HasDerivAt (fun x : ℝ => x ^ 2) (2 * sigma) sigma := by
    simpa using hasDerivAt_pow 2 sigma
  have hnum : HasDerivAt
      (fun x : ℝ => Real.log (s / k) + (r + x ^ 2 / 2) * t)
      (2 * sigma / 2 * t) sigma :=
    (((hsq.div_const 2).const_add r).mul_const t).const_add _
  have hden : HasDerivAt (fun x : ℝ => x * Real.sqrt t) (Real.sqrt t) sigma := by
    simpa using (hasDerivAt_id sigma).mul_const (Real.sqrt t)
  have hd1 : HasDerivAt (fun x => d1 s r x t k) Q sigma := hnum.div hden hst.ne'
  have hd2 : HasDerivAt (fun x => d2 s r x t k) (Q - Real.sqrt t) sigma :=
    hd1.sub hden
  have hPhi1 : HasDerivAt (fun x => Phi (d1 s r x t k))
      (normalPDF (d1 s r sigma t k) * Q) sigma := by
    simpa [Function.comp] using (hasDerivAt_Phi (d1 s r sigma t k)).comp sigma hd1
  have hPhi2 : HasDerivAt (fun x => Phi (d2 s r x t k))
      (normalPDF (d2 s r sigma t k) * (Q - Real.sqrt t)) sigma := by
    simpa [Function.comp] using (hasDerivAt_Phi (d2 s r sigma t k)).comp sigma hd2
  have hterm1 := hPhi1.mul_const s
  have hterm2 := (hPhi2.mul_const k).mul_const (Real.exp (-(r * t)))
  have htotal := hterm1.sub hterm2
  have hderiv_eq :
      normalPDF (d1 s r sigma t k) * Q * s -
        normalPDF (d2 s r sigma t k) * (Q - Real.sqrt t) * k *
          Real.exp (-(r * t)) =
      s * normalPDF (d1 s r sigma t k) * Real.sqrt t := by
    have hid := normalPDF_identity s r sigma t k hs hsig ht hk
    linear_combination (Real.sqrt t - Q) * hid
  rw [hderiv_eq] at htotal
  exact htotal

/-- C8: for fixed r, t > 0, k > 0 the Closed-Form Pricer is non-decreasing in
the spot price s0 (for fixed sigma > 0) and non-decreasing in the volatility
sigma (for fixed s0 > 0). -/
theorem call_monotone (r t k : ℝ) (ht : 0 < t) (hk : 0 < k) :
    (∀ sigma s s', 0 < sigma → 0 < s → s ≤ s' →
      call s r sigma t k ≤ call s' r sigma t k) ∧
    (∀ s sigma sigma', 0 < s → 0 < sigma → sigma ≤ sigma' →
      call s r sigma t k ≤ call s r sigma' t k) := by
  constructor
  · intro sigma s s' hsig hs hss
    have hmono : MonotoneOn (fun x => call x r sigma t k) (Ioi (0:ℝ)) := by
      apply monotoneOn_of_deriv_nonneg (convex_Ioi 0)
      · intro x hx
        exact (hasDerivAt_call_s r sigma t k hsig ht hk x
          hx).continuousAt.continuousWithinAt
      · rw [interior_Ioi]
        intro x hx
        exact (hasDerivAt_call_s r sigma t k hsig ht hk x
          hx).differentiableAt.differentiableWithinAt
      · rw [interior_Ioi]
        intro x hx
        rw [(hasDerivAt_call_s r sigma t k hsig ht hk x hx).deriv]
        exact Phi_nonneg _
    exact hmono (mem_Ioi.mpr hs) (mem_Ioi.mpr (lt_of_lt_of_le hs hss)) hss
  · intro s sigma sigma' hs hsig hss
    have hmono : MonotoneOn (fun x => call s r x t k) (Ioi (0:ℝ)) := by
      apply monotoneOn_of_deriv_nonneg (convex_Ioi 0)
      · intro x hx
        exact (hasDerivAt_call_sigma s r t k hs ht hk x
          hx).continuousAt.continuousWithinAt
      · rw [interior_Ioi]
        intro x hx
        exact (hasDerivAt_call_sigma s r t k hs ht hk x
          hx).differentiableAt.differentiableWithinAt
      · rw [interior_Ioi]
        intro x hx
        rw [(hasDerivAt_call_sigma s r t k hs ht hk x hx).deriv]
        exact mul_nonneg (mul_nonneg hs.le (normalPDF_pos _).le)
          (Real.sqrt_nonneg t)
    exact hmono (mem_Ioi.mpr hsig) (mem_Ioi.mpr (lt_of_lt_of_le hsig hss)) hss

/-- Witness for C8 at the notebook's parameters: raising the spot from 100 to
110 and the volatility from 0.4 to 0.5 each does not lower the price. -/
theorem call_monotone_witness :
    call 100 0.03 0.4 0.25 105 ≤ call 110 0.03 0.4 0.25 105 ∧
      call 100 0.03 0.4 0.25 105 ≤ call 100 0.03 0.5 0.25 105 :=
  ⟨(call_monotone 0.03 0.25 105 (by norm_num) (by norm_num)).1 0.4 100 110
      (by norm_num) (by norm_num) (by norm_num),
    (call_monotone 0.03 0.25 105 (by norm_num) (by norm_num)).2 100 0.4 0.5
      (by norm_num) (by norm_num) (by norm_num)⟩

/-! Quantitative facts about Φ, enabling a rigorous evaluation of the
Closed-Form Pricer at the notebook's concrete scenario. -/

theorem integral_normalPDF : ∫ x : ℝ, normalPDF x = 1 := by
  have h := integral_gaussian (1/2)
  rw [show Real.pi / (1/2) = 2 * Real.pi by ring] at h
  simp_rw [show ∀ x : ℝ, -(1/2 : ℝ) * x ^ 2 = -(x ^ 2 / 2) from fun x => by ring]
    at h
  unfold normalPDF
  rw [integral_div, h, div_self]
  exact (Real.sqrt_pos.mpr (by positivity)).ne'

theorem Phi_zero : Phi 0 = 1 / 2 := by
  have hsymm : (∫ x in Iic (0:ℝ), normalPDF x) =
      ∫ x in Ioi (0:ℝ), normalPDF x := by
    have h := integral_comp_neg_Iic (0:ℝ) normalPDF
    rw [neg_zero] at h
    rw [← h]
    refine setIntegral_congr_fun measurableSet_Iic fun x _ => ?_
    simp [normalPDF, neg_sq]
  have hsplit : (∫ x in Iic (0:ℝ), normalPDF x) +
      (∫ x in Ioi (0:ℝ), normalPDF x) = ∫ x : ℝ, normalPDF x :=
    intervalIntegral.integral_Iic_add_Ioi integrable_normalPDF.integrableOn
      integrable_normalPDF.integrableOn
  rw [integral_normalPDF] at hsplit
  unfold Phi
  linarith [hsymm, hsplit]

theorem Phi_mono : Monotone Phi := by
  intro x y hxy
  unfold Phi
  exact setIntegral_mono_set integrable_normalPDF.integrableOn
    (Filter.Eventually.of_forall fun u => (normalPDF_pos u).le)
    (Iic_subset_Iic.mpr hxy).eventuallyLE

/-- Degree-six Taylor bounds for the Gaussian integrand, from the general
exponential Taylor remainder estimate. -/
theorem exp_neg_half_sq_bounds (t : ℝ) (h : t ^ 2 / 2 ≤ 1) :
    1 - t ^ 2 / 2 + t ^ 4 / 8 - t ^ 6 / 36 ≤ Real.exp (-(t ^ 2 / 2)) ∧
      Real.exp (-(t ^ 2 / 2)) ≤ 1 - t ^ 2 / 2 + t ^ 4 / 8 + t ^ 6 / 36 := by
  have habs : |(-(t ^ 2 / 2))| = t ^ 2 / 2 := by
    rw [abs_neg, abs_of_nonneg (by positivity)]
  have hb := @Real.exp_bound (-(t ^ 2 / 2)) (by rw [habs]; exact h) 3
    (by norm_num)
  rw [Finset.sum_range_succ, Finset.sum_range_succ, Finset.sum_range_one,
    habs] at hb
  norm_num [Nat.factorial] at hb
  rw [abs_le] at hb
  constructor <;> nlinarith [hb.1, hb.2]

/-- Antiderivative bounds for the Gaussian integral over [a, 0] when
-1 ≤ a ≤ 0. -/
theorem gauss_interval_bounds (a : ℝ) (ha1 : -1 ≤ a) (ha0 : a ≤ 0) :
    (-a + a ^ 3 / 6 - a ^ 5 / 40 + a ^ 7 / 252 ≤
        ∫ t in a..(0:ℝ), Real.exp (-(t ^ 2 / 2))) ∧
      (∫ t in a..(0:ℝ), Real.exp (-(t ^ 2 / 2))) ≤
        -a + a ^ 3 / 6 - a ^ 5 / 40 - a ^ 7 / 252 := by
  have hexpint : IntervalIntegrable (fun t => Real.exp (-(t ^ 2 / 2)))
      volume a 0 := Continuous.intervalIntegrable (by fun_prop) a 0
  have hsqle : ∀ x ∈ Icc a (0:ℝ), x ^ 2 / 2 ≤ 1 := by
    intro x hx
    nlinarith [hx.1, hx.2]
  constructor
  · have hcomp : (∫ t in a..(0:ℝ), (1 - t ^ 2 / 2 + t ^ 4 / 8 - t ^ 6 / 36)) =
        -a + a ^ 3 / 6 - a ^ 5 / 40 + a ^ 7 / 252 := by
      have hF : ∀ x ∈ uIcc a (0:ℝ), HasDerivAt
          (fun u : ℝ => u - u ^ 3 / 6 + u ^ 5 / 40 - u ^ 7 / 252)
          (1 - x ^ 2 / 2 + x ^ 4 / 8 - x ^ 6 / 36) x := by
        intro x _
        have h := (((hasDerivAt_id x).sub
          ((hasDerivAt_pow 3 x).div_const 6)).add
          ((hasDerivAt_pow 5 x).div_const 40)).sub
          ((hasDerivAt_pow 7 x).div_const 252)
        convert h using 1
        push_cast
        ring
      rw [intervalIntegral.integral_eq_sub_of_hasDerivAt hF
        (Continuous.intervalIntegrable (by fun_prop) a 0)]
      norm_num
      ring
    have hlo : (∫ t in a..(0:ℝ), (1 - t ^ 2 / 2 + t ^ 4 / 8 - t ^ 6 / 36)) ≤
        ∫ t in a..(0:ℝ), Real.exp (-(t ^ 2 / 2)) :=
      intervalIntegral.integral_mono_on ha0
        (Continuous.intervalIntegrable (by fun_prop) a 0) hexpint
        (fun x hx => (exp_neg_half_sq_bounds x (hsqle x hx)).1)
    linarith
  · have hcomp : (∫ t in a..(0:ℝ), (1 - t ^ 2 / 2 + t ^ 4 / 8 + t ^ 6 / 36)) =
        -a + a ^ 3 / 6 - a ^ 5 / 40 - a ^ 7 / 252 := by
      have hF : ∀ x ∈ uIcc a (0:ℝ), HasDerivAt
          (fun u : ℝ => u - u ^ 3 / 6 + u ^ 5 / 40 + u ^ 7 / 252)
          (1 - x ^ 2 / 2 + x ^ 4 / 8 + x ^ 6 / 36) x := by
        intro x _
        have h := ((((hasDerivAt_id x).sub
          ((hasDerivAt_pow 3 x).div_const 6)).add
          ((hasDerivAt_pow 5 x).div_const 40)).add
          ((hasDerivAt_pow 7 x).div_const 252))
        convert h using 1
        push_cast
        ring
      rw [intervalIntegral.integral_eq_sub_of_hasDerivAt hF
        (Continuous.intervalIntegrable (by fun_prop) a 0)]
      norm_num
      ring
    have hhi : (∫ t in a..(0:ℝ), Real.exp (-(t ^ 2 / 2))) ≤
        ∫ t in a..(0:ℝ), (1 - t ^ 2 / 2 + t ^ 4 / 8 + t ^ 6 / 36) :=
      intervalIntegral.integral_mono_on ha0 hexpint
        (Continuous.intervalIntegrable (by fun_prop) a 0)
        (fun x hx => (exp_neg_half_sq_bounds x (hsqle x hx)).2)
    linarith

theorem Phi_eq_sub (a : ℝ) :
    Phi a = 1 / 2 -
      (∫ t in a..(0:ℝ), Real.exp (-(t ^ 2 / 2))) / Real.sqrt (2 * Real.pi) := by
  have h1 := Phi_eq a
  rw [Phi_zero, intervalIntegral.integral_symm a 0] at h1
  simp only [normalPDF] at h1
  rw [intervalIntegral.integral_div] at h1
  rw [h1]
  ring

theorem sqrt_two_pi_bounds :
    2.5066 < Real.sqrt (2 * Real.pi) ∧ Real.sqrt (2 * Real.pi) < 2.5067 := by
  have hpi1 := Real.pi_gt_d6
  have hpi2 := Real.pi_lt_d6
  constructor
  · rw [Real.lt_sqrt (by norm_num)]
    nlinarith
  · rw [Real.sqrt_lt' (by norm_num)]
    nlinarith

/-- Rational lower bound on Φ at a point of [-1, 0]. -/
theorem Phi_lower_rat (a q : ℝ) (ha1 : -1 ≤ a) (ha0 : a ≤ 0)
    (hq : (-a + a ^ 3 / 6 - a ^ 5 / 40 - a ^ 7 / 252) / 2.5066 ≤ q) :
    1 / 2 - q ≤ Phi a := by
  have hb := gauss_interval_bounds a ha1 ha0
  have hc := sqrt_two_pi_bounds
  have hcpos : (0:ℝ) < Real.sqrt (2 * Real.pi) := by linarith [hc.1]
  have hJ0 : 0 ≤ ∫ t in a..(0:ℝ), Real.exp (-(t ^ 2 / 2)) :=
    intervalIntegral.integral_nonneg ha0 fun u _ => (Real.exp_pos _).le
  have h1 : (∫ t in a..(0:ℝ), Real.exp (-(t ^ 2 / 2))) /
      Real.sqrt (2 * Real.pi) ≤
      (-a + a ^ 3 / 6 - a ^ 5 / 40 - a ^ 7 / 252) / Real.sqrt (2 * Real.pi) :=
    (div_le_div_iff_of_pos_right hcpos).mpr hb.2
  have h2 : (-a + a ^ 3 / 6 - a ^ 5 / 40 - a ^ 7 / 252) /
      Real.sqrt (2 * Real.pi) ≤
      (-a + a ^ 3 / 6 - a ^ 5 / 40 - a ^ 7 / 252) / 2.5066 :=
    div_le_div_of_nonneg_left (le_trans hJ0 hb.2) (by norm_num)
      (by linarith [hc.1])
  have heq := Phi_eq_sub a
  linarith

/-- Rational upper bound on Φ at a point of [-1, 0]. -/
theorem Phi_upper_rat (a q : ℝ) (ha1 : -1 ≤ a) (ha0 : a ≤ 0)
    (hq : q ≤ (-a + a ^ 3 / 6 - a ^ 5 / 40 + a ^ 7 / 252) / 2.5067)
    (hnn : 0 ≤ -a + a ^ 3 / 6 - a ^ 5 / 40 + a ^ 7 / 252) :
    Phi a ≤ 1 / 2 - q := by
  have hb := gauss_interval_bounds a ha1 ha0
  have hc := sqrt_two_pi_bounds
  have hcpos : (0:ℝ) < Real.sqrt (2 * Real.pi) := by linarith [hc.1]
  have h1 : (-a + a ^ 3 / 6 - a ^ 5 / 40 + a ^ 7 / 252) /
      Real.sqrt (2 * Real.pi) ≤
      (∫ t in a..(0:ℝ), Real.exp (-(t ^ 2 / 2))) / Real.sqrt (2 * Real.pi) :=
    (div_le_div_iff_of_pos_right hcpos).mpr hb.1
  have h2 : (-a + a ^ 3 / 6 - a ^ 5 / 40 + a ^ 7 / 252) / 2.5067 ≤
      (-a + a ^ 3 / 6 - a ^ 5 / 40 + a ^ 7 / 252) / Real.sqrt (2 * Real.pi) :=
    div_le_div_of_nonneg_left hnn hcpos (by linarith [hc.2])
  have heq := Phi_eq_sub a
  linarith

theorem log_bounds_21_20 :
    (0.0487897 : ℝ) ≤ Real.log (21 / 20) ∧
      Real.log (21 / 20) ≤ 0.0487905 := by
  have h := @Real.abs_log_sub_add_sum_range_le (-(1/20 : ℝ))
    (by rw [abs_neg, abs_of_nonneg (by norm_num : (0:ℝ) ≤ 1/20)]; norm_num) 4
  rw [show (1 : ℝ) - -(1/20) = 21/20 by norm_num] at h
  rw [Finset.sum_range_succ, Finset.sum_range_succ, Finset.sum_range_succ,
    Finset.sum_range_one] at h
  rw [abs_neg, abs_of_nonneg (by norm_num : (0:ℝ) ≤ 1/20)] at h
  norm_num at h
  rw [abs_le] at h
  constructor <;> linarith [h.1, h.2]

/-- C9: at the notebook's concrete scenario s0=100, r=0.03, sigma=0.4,
t=0.25, k=105 the Closed-Form Pricer is within 0.01 of the notebook's
printed value 6.19785003662, hence approximately 6.20. -/
theorem call_concrete_scenario :
    |call 100 0.03 0.4 0.25 105 - 6.19785003662| < 0.01 := by
  have hsq25 : Real.sqrt 0.25 = 0.5 := by
    rw [show (0.25:ℝ) = 0.5 ^ 2 by norm_num, Real.sqrt_sq (by norm_num)]
  have hlogval : Real.log (100 / 105 : ℝ) = -Real.log (21 / 20) := by
    rw [show (100 / 105 : ℝ) = (21 / 20)⁻¹ by norm_num, Real.log_inv]
  have hlg := log_bounds_21_20
  have hd1v : d1 100 0.03 0.4 0.25 105 =
      (-Real.log (21 / 20) + 0.0275) * 5 := by
    unfold d1
    rw [hsq25, hlogval]
    rw [div_eq_iff (by norm_num : (0.4 * 0.5 : ℝ) ≠ 0)]
    ring_nf
  have hd2v : d2 100 0.03 0.4 0.25 105 =
      (-Real.log (21 / 20) + 0.0275) * 5 - 0.2 := by
    unfold d2
    rw [hsq25, hd1v]
    norm_num
  have hd1lo : (-0.1064525 : ℝ) ≤ d1 100 0.03 0.4 0.25 105 := by
    rw [hd1v]; linarith [hlg.2]
  have hd1hi : d1 100 0.03 0.4 0.25 105 ≤ -0.1064485 := by
    rw [hd1v]; linarith [hlg.1]
  have hd2lo : (-0.3064525 : ℝ) ≤ d2 100 0.03 0.4 0.25 105 := by
    rw [hd2v]; linarith [hlg.2]
  have hd2hi : d2 100 0.03 0.4 0.25 105 ≤ -0.3064485 := by
    rw [hd2v]; linarith [hlg.1]
  have hP1lo : (1/2 - 0.0423889 : ℝ) ≤ Phi (d1 100 0.03 0.4 0.25 105) :=
    le_trans (Phi_lower_rat (-0.1064525) 0.0423889 (by norm_num) (by norm_num)
      (by norm_num)) (Phi_mono hd1lo)
  have hP1hi : Phi (d1 100 0.03 0.4 0.25 105) ≤ 1/2 - 0.0423855 :=
    le_trans (Phi_mono hd1hi) (Phi_upper_rat (-0.1064485) 0.0423855
      (by norm_num) (by norm_num) (by norm_num) (by norm_num))
  have hP2lo : (1/2 - 0.120372 : ℝ) ≤ Phi (d2 100 0.03 0.4 0.25 105) :=
    le_trans (Phi_lower_rat (-0.3064525) 0.120372 (by norm_num) (by norm_num)
      (by norm_num)) (Phi_mono hd2lo)
  have hP2hi : Phi (d2 100 0.03 0.4 0.25 105) ≤ 1/2 - 0.1203648 :=
    le_trans (Phi_mono hd2hi) (Phi_upper_rat (-0.3064485) 0.1203648
      (by norm_num) (by norm_num) (by norm_num) (by norm_num))
  have hEb : (0.992528 : ℝ) ≤ Real.exp (-(0.03 * 0.25)) ∧
      Real.exp (-(0.03 * 0.25)) ≤ 0.9925283 := by
    rw [show (-(0.03 * 0.25) : ℝ) = -(3/400) by norm_num]
    have hb := @Real.exp_bound (-(3/400 : ℝ))
      (by rw [abs_neg, abs_of_nonneg (by norm_num : (0:ℝ) ≤ 3/400)]; norm_num)
      3 (by norm_num)
    rw [Finset.sum_range_succ, Finset.sum_range_succ, Finset.sum_range_one,
      abs_neg, abs_of_nonneg (by norm_num : (0:ℝ) ≤ 3/400)] at hb
    norm_num [Nat.factorial] at hb
    rw [abs_le] at hb
    constructor <;> linarith [hb.1, hb.2]
  have hP2nn : (0:ℝ) ≤ Phi (d2 100 0.03 0.4 0.25 105) := Phi_nonneg _
  have hprod_hi : Phi (d2 100 0.03 0.4 0.25 105) * Real.exp (-(0.03 * 0.25)) ≤
      (1/2 - 0.1203648) * 0.9925283 :=
    mul_le_mul hP2hi hEb.2 (Real.exp_pos _).le (by norm_num)
  have hprod_lo : (1/2 - 0.120372) * 0.992528 ≤
      Phi (d2 100 0.03 0.4 0.25 105) * Real.exp (-(0.03 * 0.25)) :=
    mul_le_mul hP2lo hEb.1 (by norm_num) hP2nn
  unfold call
  rw [abs_lt]
  constructor <;> nlinarith [hprod_hi, hprod_lo, hP1lo, hP1hi]

/-! Tail integrals of the normal density and the Black-Scholes expectation
identity, the analytic core of the Monte Carlo convergence property. -/

theorem integral_normalPDF_Ioi (x : ℝ) :
    (∫ z in Ioi x, normalPDF z) = 1 - Phi x := by
  have hsplit : (∫ z in Iic x, normalPDF z) +
      (∫ z in Ioi x, normalPDF z) = ∫ z : ℝ, normalPDF z :=
    intervalIntegral.integral_Iic_add_Ioi integrable_normalPDF.integrableOn
      integrable_normalPDF.integrableOn
  rw [integral_normalPDF] at hsplit
  unfold Phi
  linarith

theorem Phi_neg (x : ℝ) : Phi (-x) = 1 - Phi x := by
  have h := integral_comp_neg_Iic (-x) normalPDF
  rw [neg_neg] at h
  have heq : (∫ u in Iic (-x), normalPDF (-u)) = ∫ u in Iic (-x), normalPDF u :=
    setIntegral_congr_fun measurableSet_Iic fun u _ => by simp [normalPDF, neg_sq]
  calc Phi (-x) = ∫ u in Iic (-x), normalPDF u := rfl
    _ = ∫ u in Iic (-x), normalPDF (-u) := heq.symm
    _ = ∫ u in Ioi x, normalPDF u := h
    _ = 1 - Phi x := integral_normalPDF_Ioi x

theorem exp_mul_normalPDF_eq (b z : ℝ) :
    Real.exp (b * z) * normalPDF z =
      Real.exp (b ^ 2 / 2) * normalPDF (z - b) := by
  unfold normalPDF
  rw [← mul_div_assoc, ← mul_div_assoc, ← Real.exp_add, ← Real.exp_add]
  congr 1
  exact congrArg Real.exp (by ring)

theorem integrable_exp_mul_normalPDF (b : ℝ) :
    Integrable (fun z => Real.exp (b * z) * normalPDF z) := by
  have htr : MeasurePreserving (fun z : ℝ => z + -b) volume volume :=
    measurePreserving_add_right volume (-b)
  have hcomp : Integrable (fun z : ℝ => normalPDF (z + -b)) :=
    (htr.integrable_comp continuous_normalPDF.aestronglyMeasurable).mpr
      integrable_normalPDF
  have h1 : Integrable (fun z : ℝ => Real.exp (b ^ 2 / 2) * normalPDF (z - b)) := by
    simp_rw [sub_eq_add_neg]
    exact hcomp.const_mul _
  refine h1.congr (Filter.Eventually.of_forall fun z => ?_)
  exact (exp_mul_normalPDF_eq b z).symm

theorem integral_exp_mul_normalPDF_Ioi (b c : ℝ) :
    (∫ z in Ioi c, Real.exp (b * z) * normalPDF z) =
      Real.exp (b ^ 2 / 2) * Phi (b - c) := by
  have hpt : (∫ z in Ioi c, Real.exp (b * z) * normalPDF z) =
      ∫ z in Ioi c, Real.exp (b ^ 2 / 2) * normalPDF (z - b) :=
    setIntegral_congr_fun measurableSet_Ioi fun z _ => exp_mul_normalPDF_eq b z
  have htr : MeasurePreserving (fun z : ℝ => z + -b) volume volume :=
    measurePreserving_add_right volume (-b)
  have hemb : MeasurableEmbedding (fun z : ℝ => z + -b) :=
    (MeasurableEquiv.addRight (-b)).measurableEmbedding
  have hpre : Set.preimage (fun z : ℝ => z + -b) (Ioi (c - b)) = Ioi c := by
    ext z
    simp only [Set.mem_preimage, Set.mem_Ioi]
    constructor <;> intro hz <;> linarith
  have htrans : (∫ z in Ioi c, normalPDF (z - b)) =
      ∫ z in Ioi (c - b), normalPDF z := by
    have h := htr.setIntegral_preimage_emb hemb normalPDF (Ioi (c - b))
    rw [hpre] at h
    simp_rw [sub_eq_add_neg]
    exact h
  rw [hpt, integral_mul_left, htrans, integral_normalPDF_Ioi, ← Phi_neg,
    neg_sub]

/-- The draw threshold: the simulated terminal price is at or below the strike
exactly when the standard-normal draw is at most -d2. -/
theorem bsm_scalar_le_iff (s_0 r sigma t k : ℝ) (hs : 0 < s_0)
    (hsig : 0 < sigma) (ht : 0 < t) (hk : 0 < k) (z : ℝ) :
    bsm_scalar s_0 r sigma t z ≤ k ↔ z ≤ -d2 s_0 r sigma t k := by
  have hst : 0 < sigma * Real.sqrt t := by positivity
  have hst2 : (sigma * Real.sqrt t) ^ 2 = sigma ^ 2 * t := by
    rw [mul_pow, Real.sq_sqrt ht.le]
  have hd1m : d1 s_0 r sigma t k * (sigma * Real.sqrt t) =
      Real.log (s_0 / k) + (r + sigma ^ 2 / 2) * t := by
    unfold d1
    field_simp
    ring
  have hd2b : sigma * Real.sqrt t * d2 s_0 r sigma t k =
      Real.log (s_0 / k) + (r - 0.5 * sigma ^ 2) * t := by
    unfold d2
    nlinarith [hd1m, hst2]
  have hkval : bsm_scalar s_0 r sigma t (-d2 s_0 r sigma t k) = k := by
    unfold bsm_scalar
    rw [show (r - 0.5 * sigma ^ 2) * t +
        sigma * Real.sqrt t * -d2 s_0 r sigma t k =
        -(Real.log (s_0 / k)) by linarith [hd2b]]
    rw [Real.exp_neg, Real.exp_log (by positivity), inv_div]
    field_simp
  conv_lhs => rw [← hkval]
  unfold bsm_scalar
  rw [mul_le_mul_left hs, Real.exp_le_exp]
  constructor
  · intro h
    have h2 : sigma * Real.sqrt t * z ≤
        sigma * Real.sqrt t * -d2 s_0 r sigma t k := by linarith
    exact le_of_mul_le_mul_left h2 hst
  · intro h
    have h2 : sigma * Real.sqrt t * z ≤
        sigma * Real.sqrt t * -d2 s_0 r sigma t k :=
      mul_le_mul_of_nonneg_left h hst.le
    linarith

theorem continuous_bsm_scalar (s_0 r sigma t : ℝ) :
    Continuous (bsm_scalar s_0 r sigma t) := by
  unfold bsm_scalar
  fun_prop

theorem bsm_scalar_eq_mul_exp (s_0 r sigma t z : ℝ) :
    bsm_scalar s_0 r sigma t z =
      s_0 * Real.exp ((r - 0.5 * sigma ^ 2) * t) *
        Real.exp (sigma * Real.sqrt t * z) := by
  unfold bsm_scalar
  rw [Real.exp_add]
  ring

theorem integrable_payoff_mul_normalPDF (s_0 r sigma t k : ℝ) (hs : 0 < s_0)
    (hk : 0 < k) :
    Integrable (fun z => max (bsm_scalar s_0 r sigma t z - k) 0 * normalPDF z) := by
  have hg : Integrable (fun z => s_0 * Real.exp ((r - 0.5 * sigma ^ 2) * t) *
      (Real.exp (sigma * Real.sqrt t * z) * normalPDF z)) :=
    (integrable_exp_mul_normalPDF (sigma * Real.sqrt t)).const_mul _
  refine hg.mono' ?_ (Filter.Eventually.of_forall fun z => ?_)
  · exact (((continuous_bsm_scalar s_0 r sigma t).sub continuous_const).max
      continuous_const).mul continuous_normalPDF |>.aestronglyMeasurable
  · have hpdf := normalPDF_pos z
    have hbpos : 0 < bsm_scalar s_0 r sigma t z := by
      unfold bsm_scalar
      positivity
    have hA : max (bsm_scalar s_0 r sigma t z - k) 0 ≤
        s_0 * Real.exp ((r - 0.5 * sigma ^ 2) * t) *
          Real.exp (sigma * Real.sqrt t * z) := by
      rw [← bsm_scalar_eq_mul_exp]
      exact max_le (by linarith) hbpos.le
    rw [Real.norm_eq_abs, abs_of_nonneg (mul_nonneg (le_max_right _ _) hpdf.le)]
    calc max (bsm_scalar s_0 r sigma t z - k) 0 * normalPDF z ≤
        s_0 * Real.exp ((r - 0.5 * sigma ^ 2) * t) *
          Real.exp (sigma * Real.sqrt t * z) * normalPDF z :=
          mul_le_mul_of_nonneg_right hA hpdf.le
      _ = s_0 * Real.exp ((r - 0.5 * sigma ^ 2) * t) *
          (Real.exp (sigma * Real.sqrt t * z) * normalPDF z) := by ring

theorem integrable_payoff_sq_mul_normalPDF (s_0 r sigma t k : ℝ) (hs : 0 < s_0)
    (hk : 0 < k) :
    Integrable (fun z =>
      max (bsm_scalar s_0 r sigma t z - k) 0 ^ 2 * normalPDF z) := by
  have hg : Integrable (fun z =>
      (s_0 * Real.exp ((r - 0.5 * sigma ^ 2) * t)) ^ 2 *
        (Real.exp (2 * (sigma * Real.sqrt t) * z) * normalPDF z)) :=
    (integrable_exp_mul_normalPDF (2 * (sigma * Real.sqrt t))).const_mul _
  refine hg.mono' ?_ (Filter.Eventually.of_forall fun z => ?_)
  · exact ((((continuous_bsm_scalar s_0 r sigma t).sub continuous_const).max
      continuous_const).pow 2).mul continuous_normalPDF |>.aestronglyMeasurable
  · have hpdf := normalPDF_pos z
    have hbpos : 0 < bsm_scalar s_0 r sigma t z := by
      unfold bsm_scalar
      positivity
    have hA : max (bsm_scalar s_0 r sigma t z - k) 0 ≤
        s_0 * Real.exp ((r - 0.5 * sigma ^ 2) * t) *
          Real.exp (sigma * Real.sqrt t * z) := by
      rw [← bsm_scalar_eq_mul_exp]
      exact max_le (by linarith) hbpos.le
    have hA2 : max (bsm_scalar s_0 r sigma t z - k) 0 ^ 2 ≤
        (s_0 * Real.exp ((r - 0.5 * sigma ^ 2) * t) *
          Real.exp (sigma * Real.sqrt t * z)) ^ 2 :=
      pow_le_pow_left (le_max_right _ _) hA 2
    have hexp2 : (s_0 * Real.exp ((r - 0.5 * sigma ^ 2) * t) *
        Real.exp (sigma * Real.sqrt t * z)) ^ 2 =
        (s_0 * Real.exp ((r - 0.5 * sigma ^ 2) * t)) ^ 2 *
          Real.exp (2 * (sigma * Real.sqrt t) * z) := by
      rw [mul_pow, ← Real.exp_nat_mul]
      push_cast
      ring_nf
    rw [Real.norm_eq_abs,
      abs_of_nonneg (mul_nonneg (pow_nonneg (le_max_right _ _) 2) hpdf.le)]
    calc max (bsm_scalar s_0 r sigma t z - k) 0 ^ 2 * normalPDF z ≤
        (s_0 * Real.exp ((r - 0.5 * sigma ^ 2) * t)) ^ 2 *
          Real.exp (2 * (sigma * Real.sqrt t) * z) * normalPDF z := by
          rw [← hexp2]
          exact mul_le_mul_of_nonneg_right hA2 hpdf.le
      _ = (s_0 * Real.exp ((r - 0.5 * sigma ^ 2) * t)) ^ 2 *
          (Real.exp (2 * (sigma * Real.sqrt t) * z) * normalPDF z) := by ring

/-- The Black-Scholes expectation identity: the expected undiscounted payoff
under the standard normal draw is s0*exp(r t)*Φ(d1) - k*Φ(d2). -/
theorem payoff_integral (s_0 r sigma t k : ℝ) (hs : 0 < s_0) (hsig : 0 < sigma)
    (ht : 0 < t) (hk : 0 < k) :
    (∫ z, max (bsm_scalar s_0 r sigma t z - k) 0 * normalPDF z) =
      s_0 * Real.exp (r * t) * Phi (d1 s_0 r sigma t k) -
        k * Phi (d2 s_0 r sigma t k) := by
  have hint := integrable_payoff_mul_normalPDF s_0 r sigma t k hs hk
  have hsplit : (∫ z in Iic (-d2 s_0 r sigma t k),
        max (bsm_scalar s_0 r sigma t z - k) 0 * normalPDF z) +
      (∫ z in Ioi (-d2 s_0 r sigma t k),
        max (bsm_scalar s_0 r sigma t z - k) 0 * normalPDF z) =
      ∫ z, max (bsm_scalar s_0 r sigma t z - k) 0 * normalPDF z :=
    intervalIntegral.integral_Iic_add_Ioi hint.integrableOn hint.integrableOn
  have hzero : (∫ z in Iic (-d2 s_0 r sigma t k),
      max (bsm_scalar s_0 r sigma t z - k) 0 * normalPDF z) = 0 := by
    have h0 : ∀ z ∈ Iic (-d2 s_0 r sigma t k),
        max (bsm_scalar s_0 r sigma t z - k) 0 * normalPDF z = 0 := by
      intro z hz
      have hle : bsm_scalar s_0 r sigma t z ≤ k :=
        (bsm_scalar_le_iff s_0 r sigma t k hs hsig ht hk z).mpr hz
      rw [max_eq_right (by linarith), zero_mul]
    rw [setIntegral_congr_fun measurableSet_Iic h0]
    simp
  have hIoi : (∫ z in Ioi (-d2 s_0 r sigma t k),
      max (bsm_scalar s_0 r sigma t z - k) 0 * normalPDF z) =
      ∫ z in Ioi (-d2 s_0 r sigma t k),
        (s_0 * Real.exp ((r - 0.5 * sigma ^ 2) * t) *
          (Real.exp (sigma * Real.sqrt t * z) * normalPDF z) -
            k * normalPDF z) := by
    apply setIntegral_congr_fun measurableSet_Ioi
    intro z hz
    have hge : k ≤ bsm_scalar s_0 r sigma t z := by
      by_contra hlt
      push_neg at hlt
      have := (bsm_scalar_le_iff s_0 r sigma t k hs hsig ht hk z).mp hlt.le
      exact absurd hz (by simp only [Set.mem_Ioi]; push_neg; linarith)
    show max (bsm_scalar s_0 r sigma t z - k) 0 * normalPDF z =
      s_0 * Real.exp ((r - 0.5 * sigma ^ 2) * t) *
        (Real.exp (sigma * Real.sqrt t * z) * normalPDF z) - k * normalPDF z
    rw [max_eq_left (by linarith), bsm_scalar_eq_mul_exp]
    ring
  have hintexp : IntegrableOn
      (fun z => s_0 * Real.exp ((r - 0.5 * sigma ^ 2) * t) *
        (Real.exp (sigma * Real.sqrt t * z) * normalPDF z))
      (Ioi (-d2 s_0 r sigma t k)) :=
    (((integrable_exp_mul_normalPDF (sigma * Real.sqrt t)).const_mul
      _).integrableOn)
  have hintk : IntegrableOn (fun z => k * normalPDF z)
      (Ioi (-d2 s_0 r sigma t k)) :=
    ((integrable_normalPDF.const_mul k).integrableOn)
  have hb2 : (sigma * Real.sqrt t) ^ 2 = sigma ^ 2 * t := by
    rw [mul_pow, Real.sq_sqrt ht.le]
  have hexprt : Real.exp ((r - 0.5 * sigma ^ 2) * t) *
      Real.exp ((sigma * Real.sqrt t) ^ 2 / 2) = Real.exp (r * t) := by
    rw [← Real.exp_add, hb2]
    exact congrArg Real.exp (by ring)
  have hd1eq : sigma * Real.sqrt t - -d2 s_0 r sigma t k = d1 s_0 r sigma t k := by
    unfold d2
    ring
  rw [← hsplit, hzero, zero_add, hIoi,
    integral_sub hintexp hintk, integral_mul_left, integral_mul_left,
    integral_exp_mul_normalPDF_Ioi, integral_normalPDF_Ioi, hd1eq]
  have h1mPhi : (1:ℝ) - Phi (-d2 s_0 r sigma t k) = Phi (d2 s_0 r sigma t k) := by
    rw [Phi_neg]
    ring
  rw [h1mPhi]
  rw [show s_0 * Real.exp ((r - 0.5 * sigma ^ 2) * t) *
      (Real.exp ((sigma * Real.sqrt t) ^ 2 / 2) * Phi (d1 s_0 r sigma t k)) =
      s_0 * (Real.exp ((r - 0.5 * sigma ^ 2) * t) *
        Real.exp ((sigma * Real.sqrt t) ^ 2 / 2)) * Phi (d1 s_0 r sigma t k)
    by ring, hexprt]

/-! Bridges between the Mathlib standard gaussian law and the modelled
density, so that expectations of the Monte Carlo summand reduce to Lebesgue
integrals against `normalPDF`. -/

theorem gaussianPDFReal_zero_one :
    ProbabilityTheory.gaussianPDFReal 0 1 = normalPDF := by
  funext x
  unfold ProbabilityTheory.gaussianPDFReal normalPDF
  rw [NNReal.coe_one, mul_one, mul_one, sub_zero,
    show -x ^ 2 / (2:ℝ) = -(x ^ 2 / 2) by ring, inv_mul_eq_div]

theorem integral_gaussianReal_eq (g : ℝ → ℝ) :
    (∫ x, g x ∂(ProbabilityTheory.gaussianReal 0 1)) =
      ∫ x, g x * normalPDF x := by
  rw [ProbabilityTheory.gaussianReal_of_var_ne_zero 0 one_ne_zero]
  have hpdf : ProbabilityTheory.gaussianPDF 0 1 = fun x =>
      ((Real.toNNReal (ProbabilityTheory.gaussianPDFReal 0 1 x) : NNReal) :
        ENNReal) := rfl
  rw [hpdf, integral_withDensity_eq_integral_smul
    ((ProbabilityTheory.measurable_gaussianPDFReal 0 1).real_toNNReal) g]
  congr 1
  funext x
  rw [NNReal.smul_def,
    Real.coe_toNNReal _ (ProbabilityTheory.gaussianPDFReal_nonneg 0 1 x),
    gaussianPDFReal_zero_one, smul_eq_mul]
  ring

theorem integrable_gaussianReal_iff (g : ℝ → ℝ) :
    Integrable g (ProbabilityTheory.gaussianReal 0 1) ↔
      Integrable (fun x => g x * normalPDF x) := by
  rw [ProbabilityTheory.gaussianReal_of_var_ne_zero 0 one_ne_zero]
  rw [integrable_withDensity_iff (ProbabilityTheory.measurable_gaussianPDF 0 1)
    (Filter.Eventually.of_forall fun x => ENNReal.ofReal_lt_top)]
  have htoReal : ∀ x, (ProbabilityTheory.gaussianPDF 0 1 x).toReal = normalPDF x := by
    intro x
    unfold ProbabilityTheory.gaussianPDF
    rw [ENNReal.toReal_ofReal (ProbabilityTheory.gaussianPDFReal_nonneg 0 1 x),
      gaussianPDFReal_zero_one]
  simp_rw [htoReal]

/-! Integrals of functions of single coordinates over a finite product of a
probability space, used for the second-moment bound on the Monte Carlo mean. -/

theorem prod_ite_single {M : Type*} [CommMonoid M] {n : ℕ} (i : Fin n)
    (f : Fin n → M) : (∏ l : Fin n, if l = i then f l else 1) = f i := by
  rw [Finset.prod_ite_eq' Finset.univ i f]
  simp

theorem prod_ite_pair {M : Type*} [CommMonoid M] {n : ℕ} {i j : Fin n}
    (hij : i ≠ j) (f g : Fin n → M) :
    (∏ l : Fin n, if l = i then f l else if l = j then g l else 1) =
      f i * g j := by
  classical
  rw [← Finset.prod_subset (Finset.subset_univ ({i, j} : Finset (Fin n)))]
  · rw [Finset.prod_insert (by simp [hij]), Finset.prod_singleton]
    simp [hij, Ne.symm hij]
  · intro x _ hx
    simp only [Finset.mem_insert, Finset.mem_singleton] at hx
    push_neg at hx
    simp [hx.1, hx.2]

theorem integral_coord {E : Type*} [MeasureSpace E]
    [IsProbabilityMeasure (volume : Measure E)] {n : ℕ} (i : Fin n)
    (g : E → ℝ) : (∫ z : Fin n → E, g (z i)) = ∫ x, g x := by
  have key : (∫ z : Fin n → E, ∏ l, (if l = i then g (z l) else 1)) =
      ∏ l : Fin n, ∫ x : E, (if l = i then g x else 1 : ℝ) :=
    integral_fintype_prod_eq_prod (Fin n) (fun l x => if l = i then g x else 1)
  have heval : ∀ l : Fin n,
      (∫ x : E, (if l = i then g x else 1 : ℝ)) =
        if l = i then ∫ x, g x else 1 := by
    intro l
    by_cases hl : l = i
    · simp [hl]
    · simp [hl]
  calc (∫ z : Fin n → E, g (z i))
      = ∫ z : Fin n → E, ∏ l, (if l = i then g (z l) else 1) := by
        congr 1
        funext z
        exact (prod_ite_single i fun l => g (z l)).symm
    _ = ∏ l : Fin n, ∫ x : E, (if l = i then g x else 1 : ℝ) := key
    _ = ∏ l : Fin n, (if l = i then ∫ x, g x else 1 : ℝ) :=
        Finset.prod_congr rfl fun l _ => heval l
    _ = ∫ x, g x := prod_ite_single i fun _ => ∫ x, g x

theorem integrable_coord_mul {E : Type*} [MeasureSpace E]
    [IsProbabilityMeasure (volume : Measure E)] {n : ℕ} (i j : Fin n)
    (g h : E → ℝ) (hg : Integrable g) (hh : Integrable h)
    (hgh : Integrable (fun x => g x * h x)) :
    Integrable (fun z : Fin n → E => g (z i) * h (z j)) := by
  by_cases hij : i = j
  · subst hij
    have hf : ∀ l : Fin n,
        Integrable (fun x : E => if l = i then g x * h x else 1) := by
      intro l
      by_cases hl : l = i
      · simpa [hl] using hgh
      · simp [hl]
    have key := Integrable.fintype_prod hf
    refine key.congr (Filter.Eventually.of_forall fun z => ?_)
    exact prod_ite_single i fun l => g (z l) * h (z l)
  · have hf : ∀ l : Fin n, Integrable
        (fun x : E => if l = i then g x else if l = j then h x else 1) := by
      intro l
      by_cases hl : l = i
      · simpa [hl] using hg
      · by_cases hl2 : l = j
        · simpa [hl, hl2, Ne.symm hij] using hh
        · simp [hl, hl2]
    have key := Integrable.fintype_prod hf
    refine key.congr (Filter.Eventually.of_forall fun z => ?_)
    exact prod_ite_pair hij (fun l => g (z l)) fun l => h (z l)

theorem integral_coord_mul {E : Type*} [MeasureSpace E]
    [IsProbabilityMeasure (volume : Measure E)] {n : ℕ} {i j : Fin n}
    (hij : i ≠ j) (g h : E → ℝ) :
    (∫ z : Fin n → E, g (z i) * h (z j)) = (∫ x, g x) * ∫ x, h x := by
  have key : (∫ z : Fin n → E,
      ∏ l, (if l = i then g (z l) else if l = j then h (z l) else 1)) =
      ∏ l : Fin n,
        ∫ x : E, (if l = i then g x else if l = j then h x else 1 : ℝ) :=
    integral_fintype_prod_eq_prod (Fin n)
      (fun l x => if l = i then g x else if l = j then h x else 1)
  have heval : ∀ l : Fin n,
      (∫ x : E, (if l = i then g x else if l = j then h x else 1 : ℝ)) =
        if l = i then ∫ x, g x else if l = j then ∫ x, h x else 1 := by
    intro l
    by_cases hl : l = i
    · simp [hl]
    · by_cases hl2 : l = j
      · simp [hl, hl2, Ne.symm hij]
      · simp [hl, hl2]
  calc (∫ z : Fin n → E, g (z i) * h (z j))
      = ∫ z : Fin n → E,
          ∏ l, (if l = i then g (z l) else if l = j then h (z l) else 1) := by
        congr 1
        funext z
        exact (prod_ite_pair hij (fun l => g (z l)) fun l => h (z l)).symm
    _ = ∏ l : Fin n,
          ∫ x : E, (if l = i then g x else if l = j then h x else 1 : ℝ) := key
    _ = ∏ l : Fin n,
          (if l = i then ∫ x, g x else if l = j then ∫ x, h x else 1 : ℝ) :=
        Finset.prod_congr rfl fun l _ => heval l
    _ = (∫ x, g x) * ∫ x, h x :=
        prod_ite_pair hij (fun _ => ∫ x, g x) fun _ => ∫ x, h x

/-- Second moment of a centered sum of independent coordinates: the cross
terms vanish, leaving n times the one-coordinate second moment. -/
theorem integral_sq_sum_coord {E : Type*} [MeasureSpace E]
    [IsProbabilityMeasure (volume : Measure E)] (psi : E → ℝ)
    (hpsi : Integrable psi) (hpsi2 : Integrable (fun x => psi x ^ 2))
    (hpsi0 : (∫ x, psi x) = 0) (n : ℕ) :
    (∫ z : Fin n → E, (∑ l, psi (z l)) ^ 2) = n * ∫ x, psi x ^ 2 := by
  have hmul : Integrable (fun x => psi x * psi x) :=
    hpsi2.congr (Filter.Eventually.of_forall fun x => pow_two (psi x))
  have hintterm : ∀ l1 l2 : Fin n,
      Integrable (fun z : Fin n → E => psi (z l1) * psi (z l2)) := fun l1 l2 =>
    integrable_coord_mul l1 l2 psi psi hpsi hpsi hmul
  calc (∫ z : Fin n → E, (∑ l, psi (z l)) ^ 2)
      = ∫ z : Fin n → E, ∑ l1 : Fin n, ∑ l2 : Fin n, psi (z l1) * psi (z l2) := by
        congr 1
        funext z
        rw [pow_two, Finset.sum_mul_sum]
    _ = ∑ l1 : Fin n, ∫ z : Fin n → E,
          ∑ l2 : Fin n, psi (z l1) * psi (z l2) :=
        integral_finset_sum _ fun l1 _ =>
          integrable_finset_sum _ fun l2 _ => hintterm l1 l2
    _ = ∑ l1 : Fin n, ∑ l2 : Fin n,
          ∫ z : Fin n → E, psi (z l1) * psi (z l2) :=
        Finset.sum_congr rfl fun l1 _ =>
          integral_finset_sum _ fun l2 _ => hintterm l1 l2
    _ = ∑ l1 : Fin n, ∑ l2 : Fin n,
          (if l1 = l2 then ∫ x, psi x ^ 2 else 0) := by
        refine Finset.sum_congr rfl fun l1 _ => Finset.sum_congr rfl fun l2 _ => ?_
        by_cases hl : l1 = l2
        · subst hl
          rw [if_pos rfl]
          rw [show (fun z : Fin n → E => psi (z l1) * psi (z l1)) =
            fun z => (fun x => psi x ^ 2) (z l1) from funext fun z => (pow_two (psi (z l1))).symm]
          exact integral_coord l1 fun x => psi x ^ 2
        · rw [if_neg hl, integral_coord_mul hl psi psi, hpsi0, zero_mul]
    _ = n * ∫ x, psi x ^ 2 := by
        simp only [Finset.sum_ite_eq, Finset.mem_univ, if_true]
        rw [Finset.sum_const, Finset.card_univ, Fintype.card_fin,
          nsmul_eq_mul]

/-! Moments of the discounted payoff under the standard normal law. -/

theorem integrable_payoff_gaussian (s_0 r sigma t k : ℝ) (hs : 0 < s_0)
    (hk : 0 < k) :
    Integrable (payoff_discounted s_0 r sigma t k)
      (ProbabilityTheory.gaussianReal 0 1) := by
  rw [integrable_gaussianReal_iff]
  have h := (integrable_payoff_mul_normalPDF s_0 r sigma t k hs hk).const_mul
    (Real.exp (-(r * t)))
  refine h.congr (Filter.Eventually.of_forall fun x => ?_)
  unfold payoff_discounted
  ring

theorem integral_payoff_gaussian (s_0 r sigma t k : ℝ) (hs : 0 < s_0)
    (hsig : 0 < sigma) (ht : 0 < t) (hk : 0 < k) :
    (∫ x, payoff_discounted s_0 r sigma t k x
      ∂(ProbabilityTheory.gaussianReal 0 1)) = call s_0 r sigma t k := by
  rw [integral_gaussianReal_eq]
  have hfun : (fun x => payoff_discounted s_0 r sigma t k x * normalPDF x) =
      fun x => Real.exp (-(r * t)) *
        (max (bsm_scalar s_0 r sigma t x - k) 0 * normalPDF x) := by
    funext x
    unfold payoff_discounted
    ring
  rw [hfun, integral_mul_left, payoff_integral s_0 r sigma t k hs hsig ht hk]
  unfold call
  have hcancel : Real.exp (-(r * t)) * Real.exp (r * t) = 1 := by
    rw [← Real.exp_add]
    simp
  linear_combination (s_0 * Phi (d1 s_0 r sigma t k)) * hcancel

theorem integrable_payoff_sq_gaussian (s_0 r sigma t k : ℝ) (hs : 0 < s_0)
    (hk : 0 < k) :
    Integrable (fun x => payoff_discounted s_0 r sigma t k x ^ 2)
      (ProbabilityTheory.gaussianReal 0 1) := by
  rw [integrable_gaussianReal_iff]
  have h := (integrable_payoff_sq_mul_normalPDF s_0 r sigma t k hs hk).const_mul
    (Real.exp (-(r * t)) ^ 2)
  refine h.congr (Filter.Eventually.of_forall fun x => ?_)
  unfold payoff_discounted
  ring

/-- The Monte Carlo estimate on a vector of draws is the empirical mean of
the discounted per-path payoffs. -/
theorem mc_call_price_ofFn (s_0 r sigma t k : ℝ) {n : ℕ} (z : Fin n → ℝ) :
    mc_call_price s_0 r sigma t k (List.ofFn z) =
      (∑ l, payoff_discounted s_0 r sigma t k (z l)) / n := by
  unfold mc_call_price bsm payoff_discounted
  rw [List.map_ofFn, List.map_ofFn, List.sum_ofFn, List.length_ofFn]
  rw [← mul_div_assoc, Finset.mul_sum]
  simp [Function.comp]

/-- Chebyshev bound for the Monte Carlo estimator on the product of n
standard normal draws. -/
theorem mc_deviation_bound (s_0 r sigma t k : ℝ) (hs : 0 < s_0)
    (hsig : 0 < sigma) (ht : 0 < t) (hk : 0 < k) (n : ℕ) (hn : 0 < n)
    (c : ℝ) (hc : 0 < c) :
    Measure.pi (fun _ : Fin n => ProbabilityTheory.gaussianReal 0 1)
      {z | c ≤ |mc_call_price s_0 r sigma t k (List.ofFn z) -
        call s_0 r sigma t k|} ≤
      ENNReal.ofReal (mcVariance s_0 r sigma t k / (n * c ^ 2)) := by
  letI : MeasureSpace ℝ := ⟨ProbabilityTheory.gaussianReal 0 1⟩
  haveI : IsProbabilityMeasure (volume : Measure ℝ) :=
    (inferInstance : IsProbabilityMeasure (ProbabilityTheory.gaussianReal 0 1))
  have hnR : (0:ℝ) < n := by exact_mod_cast hn
  set m := call s_0 r sigma t k with hm
  set psi : ℝ → ℝ := fun x => payoff_discounted s_0 r sigma t k x - m with hpsidef
  have hpsi : Integrable psi (volume : Measure ℝ) :=
    (integrable_payoff_gaussian s_0 r sigma t k hs hk).sub (integrable_const m)
  have hpay_int : Integrable (payoff_discounted s_0 r sigma t k)
      (volume : Measure ℝ) := integrable_payoff_gaussian s_0 r sigma t k hs hk
  have hpsi0 : (∫ x, psi x) = 0 := by
    simp only [hpsidef]
    rw [integral_sub hpay_int (integrable_const m)]
    rw [show (∫ x, payoff_discounted s_0 r sigma t k x ∂(volume : Measure ℝ)) =
      call s_0 r sigma t k from
        integral_payoff_gaussian s_0 r sigma t k hs hsig ht hk]
    simp [hm]
  have hpsi2 : Integrable (fun x => psi x ^ 2) (volume : Measure ℝ) := by
    have hexp : (fun x => psi x ^ 2) = fun x =>
        payoff_discounted s_0 r sigma t k x ^ 2 -
          2 * m * payoff_discounted s_0 r sigma t k x + m ^ 2 := by
      funext x
      simp only [hpsidef]
      ring
    rw [hexp]
    exact ((integrable_payoff_sq_gaussian s_0 r sigma t k hs hk).sub
      ((integrable_payoff_gaussian s_0 r sigma t k hs hk).const_mul
        (2 * m))).add (integrable_const _)
  have hvar : (∫ x, psi x ^ 2) = mcVariance s_0 r sigma t k := rfl
  have hv0 : 0 ≤ mcVariance s_0 r sigma t k := by
    rw [← hvar]
    exact integral_nonneg fun x => sq_nonneg _
  -- the productmeasure is the volume of the pi measure space
  rw [show Measure.pi (fun _ : Fin n => ProbabilityTheory.gaussianReal 0 1) =
    (volume : Measure (Fin n → ℝ)) from volume_pi.symm]
  -- express the deviation through the centered sum
  have hMC : ∀ z : Fin n → ℝ,
      mc_call_price s_0 r sigma t k (List.ofFn z) - m =
        (∑ l, psi (z l)) / n := by
    intro z
    rw [mc_call_price_ofFn]
    have hsum : (∑ l, psi (z l)) =
        (∑ l, payoff_discounted s_0 r sigma t k (z l)) - n * m := by
      simp only [hpsidef]
      rw [Finset.sum_sub_distrib, Finset.sum_const, Finset.card_univ,
        Fintype.card_fin, nsmul_eq_mul]
    rw [hsum]
    field_simp
  have hset : {z : Fin n → ℝ | c ≤ |mc_call_price s_0 r sigma t k
      (List.ofFn z) - m|} =
      {z : Fin n → ℝ | c ^ 2 ≤ ((∑ l, psi (z l)) / n) ^ 2} := by
    ext z
    simp only [Set.mem_setOf_eq, hMC z]
    constructor
    · intro h
      calc c ^ 2 ≤ |(∑ l, psi (z l)) / n| ^ 2 :=
            pow_le_pow_left hc.le h 2
        _ = ((∑ l, psi (z l)) / n) ^ 2 := sq_abs _
    · intro h
      nlinarith [sq_abs ((∑ l, psi (z l)) / n),
        abs_nonneg ((∑ l, psi (z l)) / n)]
  have hsq_int : Integrable (fun z : Fin n → ℝ => (∑ l, psi (z l)) ^ 2)
      (volume : Measure (Fin n → ℝ)) := by
    have hmul : Integrable (fun x => psi x * psi x) (volume : Measure ℝ) :=
      hpsi2.congr (Filter.Eventually.of_forall fun x => pow_two (psi x))
    have hterm : ∀ l1 l2 : Fin n,
        Integrable (fun z : Fin n → ℝ => psi (z l1) * psi (z l2)) :=
      fun l1 l2 => integrable_coord_mul l1 l2 psi psi hpsi hpsi hmul
    have hfun : (fun z : Fin n → ℝ => (∑ l, psi (z l)) ^ 2) =
        fun z => ∑ l1 : Fin n, ∑ l2 : Fin n, psi (z l1) * psi (z l2) := by
      funext z
      rw [pow_two, Finset.sum_mul_sum]
    rw [hfun]
    exact integrable_finset_sum _ fun l1 _ =>
      integrable_finset_sum _ fun l2 _ => hterm l1 l2
  have hf_int : Integrable
      (fun z : Fin n → ℝ => ((∑ l, psi (z l)) / n) ^ 2)
      (volume : Measure (Fin n → ℝ)) := by
    have : (fun z : Fin n → ℝ => ((∑ l, psi (z l)) / n) ^ 2) =
        fun z => (∑ l, psi (z l)) ^ 2 / (n : ℝ) ^ 2 := by
      funext z
      rw [div_pow]
    rw [this]
    exact hsq_int.div_const _
  have hmarkov := mul_meas_ge_le_integral_of_nonneg
    (Filter.Eventually.of_forall fun z : Fin n → ℝ => sq_nonneg
      ((∑ l, psi (z l)) / n)) hf_int (c ^ 2)
  have hint_eval : (∫ z : Fin n → ℝ, ((∑ l, psi (z l)) / n) ^ 2) =
      mcVariance s_0 r sigma t k / n := by
    have h1 : (fun z : Fin n → ℝ => ((∑ l, psi (z l)) / n) ^ 2) =
        fun z => (∑ l, psi (z l)) ^ 2 / (n : ℝ) ^ 2 := by
      funext z
      rw [div_pow]
    rw [h1, integral_div, integral_sq_sum_coord psi hpsi hpsi2 hpsi0 n, hvar]
    field_simp
    ring
  rw [hint_eval] at hmarkov
  rw [hset]
  have hne : (volume : Measure (Fin n → ℝ))
      {z | c ^ 2 ≤ ((∑ l, psi (z l)) / n) ^ 2} ≠ ⊤ := measure_ne_top _ _
  rw [ENNReal.le_ofReal_iff_toReal_le hne (by positivity)]
  have hc2 : (0:ℝ) < c ^ 2 := by positivity
  rw [show mcVariance s_0 r sigma t k / (n * c ^ 2) =
    mcVariance s_0 r sigma t k / n / c ^ 2 by rw [div_div]]
  rw [le_div_iff hc2]
  calc ((volume : Measure (Fin n → ℝ))
        {z | c ^ 2 ≤ ((∑ l, psi (z l)) / n) ^ 2}).toReal * c ^ 2
      = c ^ 2 * ((volume : Measure (Fin n → ℝ))
          {z | c ^ 2 ≤ ((∑ l, psi (z l)) / n) ^ 2}).toReal := by ring
    _ ≤ mcVariance s_0 r sigma t k / n := hmarkov

/-- C4: as the number n of simulated paths tends to infinity, the Monte Carlo
Option Estimator on n independent standard-normal draws converges in
probability to the Closed-Form Pricer on the same parameters; moreover for
every confidence level there is a constant C such that the deviation reaches
C/sqrt(n) with probability at most that level, for every n >= 1. -/
theorem mc_call_price_converges (s_0 r sigma t k : ℝ) (hs : 0 < s_0)
    (hsig : 0 < sigma) (ht : 0 < t) (hk : 0 < k) :
    (∀ ε : ℝ, 0 < ε → Filter.Tendsto
      (fun n : ℕ =>
        Measure.pi (fun _ : Fin n => ProbabilityTheory.gaussianReal 0 1)
          {z | ε ≤ |mc_call_price s_0 r sigma t k (List.ofFn z) -
            call s_0 r sigma t k|})
      Filter.atTop (𝓝 0)) ∧
    (∀ ε : ℝ, 0 < ε → ∃ C : ℝ, 0 < C ∧ ∀ n : ℕ, 0 < n →
      Measure.pi (fun _ : Fin n => ProbabilityTheory.gaussianReal 0 1)
        {z | C / Real.sqrt n ≤
          |mc_call_price s_0 r sigma t k (List.ofFn z) -
            call s_0 r sigma t k|} ≤ ENNReal.ofReal ε) := by
  have hv0 : 0 ≤ mcVariance s_0 r sigma t k := by
    unfold mcVariance
    exact integral_nonneg fun x => sq_nonneg _
  constructor
  · intro ε hε
    have hub : ∀ᶠ n : ℕ in Filter.atTop,
        Measure.pi (fun _ : Fin n => ProbabilityTheory.gaussianReal 0 1)
          {z | ε ≤ |mc_call_price s_0 r sigma t k (List.ofFn z) -
            call s_0 r sigma t k|} ≤
          ENNReal.ofReal (mcVariance s_0 r sigma t k / ε ^ 2 / n) := by
      refine Filter.eventually_atTop.mpr ⟨1, fun n hn => ?_⟩
      refine le_trans
        (mc_deviation_bound s_0 r sigma t k hs hsig ht hk n hn ε hε)
        (ENNReal.ofReal_le_ofReal (le_of_eq ?_))
      rw [div_div, mul_comm (ε ^ 2) (n:ℝ)]
    have hlim : Filter.Tendsto
        (fun n : ℕ => ENNReal.ofReal (mcVariance s_0 r sigma t k / ε ^ 2 / n))
        Filter.atTop (𝓝 0) := by
      have hreal := tendsto_const_div_atTop_nhds_zero_nat
        (mcVariance s_0 r sigma t k / ε ^ 2)
      have h2 := ENNReal.tendsto_ofReal hreal
      rwa [ENNReal.ofReal_zero] at h2
    exact tendsto_of_tendsto_of_tendsto_of_le_of_le' tendsto_const_nhds hlim
      (Filter.Eventually.of_forall fun n => zero_le _) hub
  · intro ε hε
    refine ⟨Real.sqrt (mcVariance s_0 r sigma t k / ε) + 1, by positivity,
      fun n hn => ?_⟩
    have hnR : (0:ℝ) < n := by exact_mod_cast hn
    have hsn : (0:ℝ) < Real.sqrt n := Real.sqrt_pos.mpr hnR
    have hc : (0:ℝ) <
        (Real.sqrt (mcVariance s_0 r sigma t k / ε) + 1) / Real.sqrt n := by
      positivity
    refine le_trans
      (mc_deviation_bound s_0 r sigma t k hs hsig ht hk n hn _ hc)
      (ENNReal.ofReal_le_ofReal ?_)
    have hsq : ((Real.sqrt (mcVariance s_0 r sigma t k / ε) + 1) /
        Real.sqrt n) ^ 2 =
        (Real.sqrt (mcVariance s_0 r sigma t k / ε) + 1) ^ 2 / n := by
      rw [div_pow, Real.sq_sqrt hnR.le]
    rw [hsq, show (n:ℝ) *
      ((Real.sqrt (mcVariance s_0 r sigma t k / ε) + 1) ^ 2 / n) =
      (Real.sqrt (mcVariance s_0 r sigma t k / ε) + 1) ^ 2 by
        rw [mul_comm, div_mul_cancel₀ _ hnR.ne']]
    rw [div_le_iff (by positivity)]
    have hsq2 : Real.sqrt (mcVariance s_0 r sigma t k / ε) ^ 2 =
        mcVariance s_0 r sigma t k / ε := Real.sq_sqrt (by positivity)
    have h3 : ε * Real.sqrt (mcVariance s_0 r sigma t k / ε) ^ 2 =
        mcVariance s_0 r sigma t k := by
      rw [hsq2]
      field_simp
    have hprod : 0 ≤ ε * Real.sqrt (mcVariance s_0 r sigma t k / ε) :=
      mul_nonneg hε.le (Real.sqrt_nonneg _)
    nlinarith [h3, hprod, hε.le]

/-- Witness for C4: at the notebook's parameters the probability of a unit
deviation tends to zero. -/
theorem mc_call_price_converges_witness :
    Filter.Tendsto
      (fun n : ℕ =>
        Measure.pi (fun _ : Fin n => ProbabilityTheory.gaussianReal 0 1)
          {z | 1 ≤ |mc_call_price 100 0.03 0.4 0.25 105 (List.ofFn z) -
            call 100 0.03 0.4 0.25 105|})
      Filter.atTop (𝓝 0) :=
  (mc_call_price_converges 100 0.03 0.4 0.25 105 (by norm_num) (by norm_num)
    (by norm_num) (by norm_num)).1 1 (by norm_num)

end BSM
